import Mathlib

/-!
# Verification of the state_commitment_layout tree-sizing programs

This file gives a shallow embedding of the arithmetic core of the
`state_commitment_layout` repository and proves the specified properties
about it:

* `estimate_tree` / `build_layout` (`app.py`): level-by-level k-ary tree
  shape estimation by repeated ceiling division, and the derived proof /
  commitment byte sizes;
* the best-layout selection of `choose_best_layout.py` (Python `min` with a
  key function over candidate fanouts);
* the leaf-count sequence generator of `sweep_layouts.py`;
* the integer height specification that `layout_sizer.py` is documented to
  compute (smallest `h` with `arity ^ h ≥ leaves`).

Machine arithmetic is modelled with `Nat`/`Int` (Python integers are
arbitrary precision).  Loops are modelled by well-founded recursion, with
the hypotheses that make them terminate carried as explicit arguments.
-/

/-- Ceiling division on naturals: `math.ceil(a / b)` for positive integers
`a`, `b` as used by the level-reduction loop of `estimate_tree`. -/
def ceil_div (a b : Nat) : Nat := (a + b - 1) / b

/-- The output record of `estimate_tree` in `app.py`. -/
structure TreeShape where
  height : Nat
  totalNodes : Nat
  nodesPerLevel : List Nat
deriving Repr, DecidableEq

/-- The per-level sequence that the `while nodes > 1` loop of
`estimate_tree` appends to `per_level`: the current node count, then the
levels of the ceiling-divided remainder, ending with the root level `[1]`
(or `[n]` when the loop is never entered). -/
def levels (f : Nat) (hf : 2 ≤ f) (n : Nat) : List Nat :=
  if h : 1 < n then n :: levels f hf (ceil_div n f)
  else [n]
termination_by n
decreasing_by
  simp only [ceil_div]
  rw [Nat.div_lt_iff_lt_mul (by omega)]
  have h2 := Nat.add_le_mul (show 2 ≤ n by omega) hf
  omega

/-- The `while nodes > 1` loop of `estimate_tree` (`app.py` lines 54-61),
carrying the loop state `nodes`, `height`, `total_nodes`, `per_level`;
followed by the two post-loop statements that append the final node count.
This is the exact-arithmetic reading of `math.ceil(nodes / fanout)`: it
agrees with the code's float division bit-for-bit while `nodes ≤ 2 ^ 53`;
`estimateLoopF` below models the float division (rounding and
`OverflowError`) exactly on the whole domain. -/
def estimateLoop (f : Nat) (hf : 2 ≤ f) (nodes height totalNodes : Nat)
    (perLevel : List Nat) : TreeShape :=
  if h : 1 < nodes then
    estimateLoop f hf (ceil_div nodes f) (height + 1) (totalNodes + nodes)
      (perLevel ++ [nodes])
  else
    { height := height, totalNodes := totalNodes + nodes,
      nodesPerLevel := perLevel ++ [nodes] }
termination_by nodes
decreasing_by
  simp only [ceil_div]
  rw [Nat.div_lt_iff_lt_mul (by omega)]
  have h2 := Nat.add_le_mul (show 2 ≤ nodes by omega) hf
  omega

/-- `estimate_tree` from `app.py`: validates `leaves` and `fanout`, then
runs the level-reduction loop starting from `nodes = leaves`,
`height = 0`, `total_nodes = 0`, `per_level = []`.  Exact-arithmetic
reading (faithful to the code for `leaves ≤ 2 ^ 53`); the bit-exact float
model of the same function is `estimate_tree_float`. -/
def estimate_tree (leaves fanout : Int) : Except String TreeShape :=
  if leaves ≤ 0 then .error "leaves must be positive"
  else if h : fanout = 2 ∨ fanout = 4 ∨ fanout = 8 then
    .ok (estimateLoop fanout.toNat
      (by rcases h with h | h | h <;> simp [h]) leaves.toNat 0 0 [])
  else .error "fanout must be one of 2, 4, or 8"

/-- Style profile record from `app.py`. -/
structure StyleProfile where
  key : String
  name : String
  hash_bytes : Nat
  note : String
deriving Repr, DecidableEq

/-- The `STYLES` catalog of `app.py` as a key lookup. -/
def STYLES (key : String) : Option StyleProfile :=
  if key = "aztec" then
    some { key := "aztec", name := "Aztec-style privacy rollup",
           hash_bytes := 32,
           note := "Optimised for zk commitments over encrypted state roots." }
  else if key = "zama" then
    some { key := "zama", name := "Zama-style FHE compute stack",
           hash_bytes := 48,
           note := "FHE-heavy designs often tolerate slightly larger commitments." }
  else if key = "soundness" then
    some { key := "soundness", name := "Soundness-first protocol lab",
           hash_bytes := 32,
           note := "Prefers simple, standard-sized commitments for verifiable semantics." }
  else none

/-- The result record of `build_layout` in `app.py`. -/
structure LayoutResult where
  style : String
  styleName : String
  note : String
  leaves : Int
  fanout : Int
  treeHeight : Nat
  totalNodes : Nat
  nodesPerLevel : List Nat
  hashBytes : Nat
  proofBranchLength : Nat
  perProofBytes : Nat
  perProofBits : Nat
  totalCommitmentBytes : Nat
deriving Repr, DecidableEq

/-- `build_layout` from `app.py`: delegates the tree shape to
`estimate_tree` and combines it with the style's hash size. -/
def build_layout (style : StyleProfile) (leaves fanout : Int) :
    Except String LayoutResult :=
  (estimate_tree leaves fanout).map fun tree =>
    { style := style.key
      styleName := style.name
      note := style.note
      leaves := leaves
      fanout := fanout
      treeHeight := tree.height
      totalNodes := tree.totalNodes
      nodesPerLevel := tree.nodesPerLevel
      hashBytes := style.hash_bytes
      proofBranchLength := tree.height
      perProofBytes := (tree.height + 1) * style.hash_bytes
      perProofBits := (tree.height + 1) * style.hash_bytes * 8
      totalCommitmentBytes := tree.totalNodes * style.hash_bytes }

/-- One successful candidate evaluation collected by
`choose_best_layout.py` (`LayoutResult` dataclass there): a fanout and the
JSON payload of the evaluated layout, modelled as a partial map from field
names to integer values. -/
structure LayoutRun where
  fanout : Int
  data : String → Option Nat

/-- `metric_value` from `choose_best_layout.py`: a missing metric is
treated as `+infinity` (here the top element of `WithTop Nat`). -/
def metric_value (data : String → Option Nat) (metric : String) :
    WithTop Nat :=
  match data metric with
  | none => ⊤
  | some v => (v : WithTop Nat)

/-- The selection step of `main` in `choose_best_layout.py`:
`min(layouts, key=lambda lr: metric_value(lr.data, metric))`.  Python's
`min` scans left to right and replaces the current best only on a strictly
smaller key, so the first minimum wins; an empty candidate list is the
`sys.exit(1)` path, modelled as `none`. -/
def select_step (metric : String) (best lr : LayoutRun) : LayoutRun :=
  if metric_value lr.data metric < metric_value best.data metric
  then lr else best

/-- See `select_step`: scanning the candidate list with it is exactly
Python's `min`. -/
def choose_best (layouts : List LayoutRun) (metric : String) :
    Option LayoutRun :=
  match layouts with
  | [] => none
  | x :: xs => some (xs.foldl (select_step metric) x)

/-- The exact power-of-two test that the branch policy of
`generate_leaf_counts` in `sweep_layouts.py` describes ("if both leafMin
and leafMax are exact powers of two").  The code implements it as
`math.log2(n).is_integer()`, which coincides with this test for
`n < 2 ^ 53` but also accepts integers whose double conversion merely
rounds to a power of two (e.g. `2 ^ 53 + 1`, which converts to `2 ^ 53`),
and whose exact acceptance region additionally depends on the platform's
libm `log2` rounding. -/
def isPow2 (n : Nat) : Bool := n == 2 ^ Nat.log2 n

/-- The fallback branch of `generate_leaf_counts`: repeated doubling from
`n` while the count stays within `leaf_max`. -/
def doubleLoop (leaf_max : Nat) (n : Nat) (hn : 1 ≤ n) : List Nat :=
  if n ≤ leaf_max then n :: doubleLoop leaf_max (n * 2) (by omega)
  else []
termination_by leaf_max + 1 - n
decreasing_by omega

/-- The power-of-two branch of `generate_leaf_counts`: emit `2 ^ p` while
`p ≤ end_pow`, advancing `p` by `step` each iteration. -/
def powLoop (end_pow step : Nat) (hstep : 1 ≤ step) (p : Nat) : List Nat :=
  if p ≤ end_pow then 2 ^ p :: powLoop end_pow step hstep (p + step)
  else []
termination_by end_pow + 1 - p
decreasing_by omega

/-- `generate_leaf_counts` from `sweep_layouts.py` (lines 70-91): validate
the range, fall back to doubling when either endpoint is not an exact
power of two, otherwise step through exponents from `log2(leaf_min)` to
`log2(leaf_max)` by `step`.  The branch test is the exact power-of-two
predicate the spec states (see `isPow2`); the code's float test departs
from it for endpoints ≥ `2 ^ 53` such as `2 ^ 53 + 1`. -/
def generate_leaf_counts (leaf_min leaf_max step : Nat)
    (hstep : 1 ≤ step) : Except String (List Nat) :=
  if h : leaf_min ≤ 0 ∨ leaf_max < leaf_min then
    .error "leaf-min must be > 0 and <= leaf-max"
  else if !isPow2 leaf_min || !isPow2 leaf_max then
    .ok (doubleLoop leaf_max leaf_min (by omega))
  else
    .ok (powLoop (Nat.log2 leaf_max) step hstep (Nat.log2 leaf_min))

/-- Modelled from the spec: `layout_sizer.py` documents its height as the
"minimal height such that arity**height >= leaves", and the spec requires
it to be "computed exactly ... e.g. incrementing a power accumulator
rather than trusting `log`".  This is that integer-safe accumulator loop:
`p` holds `arity ^ h` and is multiplied up until it covers `leaves`. -/
def spec_height_loop (arity : Nat) (ha : 2 ≤ arity) (leaves p : Nat)
    (hp : 1 ≤ p) (h : Nat) : Nat :=
  if hlt : p < leaves then
    spec_height_loop arity ha leaves (p * arity)
      (by have := Nat.mul_le_mul hp (show 1 ≤ arity by omega); omega)
      (h + 1)
  else h
termination_by leaves - p
decreasing_by
  have := Nat.mul_le_mul (Nat.le_refl p) ha
  omega

/-- Modelled from the spec: the exact height `layout_sizer.py` is
specified to return, namely the smallest non-negative `h` with
`arity ^ h ≥ leaves`, computed by the integer-safe accumulator. -/
def spec_min_height (leaves arity : Nat) (ha : 2 ≤ arity) : Nat :=
  spec_height_loop arity ha leaves 1 (by omega) 0

/-- Rounding of a positive integer to IEEE-754 double precision (53
significant bits, round half to even, unbounded exponent), as performed by
CPython when it converts an `int` operand inside `int / int` true division
(`long_true_divide` computes the correctly rounded quotient).  For
`n ≤ 2 ^ 53` the conversion is exact. -/
def round53 (n : Nat) : Nat :=
  if n < 2 ^ 53 then n
  else if 2 ^ (Nat.log2 n - 52 - 1) < n % 2 ^ (Nat.log2 n - 52) ∨
      (n % 2 ^ (Nat.log2 n - 52) = 2 ^ (Nat.log2 n - 52 - 1) ∧
        n / 2 ^ (Nat.log2 n - 52) % 2 = 1) then
    (n / 2 ^ (Nat.log2 n - 52) + 1) * 2 ^ (Nat.log2 n - 52)
  else n / 2 ^ (Nat.log2 n - 52) * 2 ^ (Nat.log2 n - 52)

/-- `math.ceil(nodes / fanout)` as the code really computes it for the
allowed fanouts (powers of two): `nodes / fanout` is the correctly rounded
double of the quotient, which for a power-of-two divisor is the exact
quotient of `round53 nodes` (dividing by `2 ^ k` only shifts the
exponent), and `math.ceil` of that double is exact. -/
def float_ceil_div (nodes f : Nat) : Nat := ceil_div (round53 nodes) f

/-- The float-rounded update still strictly decreases every `nodes > 1`
(the rounding error is below one part in `2 ^ 52`), which is what makes
the real loop terminate whenever it does not overflow. -/
def float_ceil_div_lt {nodes f : Nat} (hf : 2 ≤ f) (hn : 1 < nodes) :
    float_ceil_div nodes f < nodes := by
  have hr : round53 nodes ≤ 2 * nodes - 2 := by
    unfold round53
    by_cases hsmall : nodes < 2 ^ 53
    · rw [if_pos hsmall]
      omega
    · rw [if_neg hsmall]
      have hlog : 53 ≤ Nat.log2 nodes := (Nat.le_log2 (by omega)).mpr (by omega)
      have hpow : 2 ^ Nat.log2 nodes ≤ nodes := Nat.log2_self_le (by omega)
      have hsplit : 2 ^ (Nat.log2 nodes - 52) * 2 ^ 52 = 2 ^ Nat.log2 nodes := by
        rw [← Nat.pow_add]
        congr 1
        omega
      have h4 : 4 * 2 ^ (Nat.log2 nodes - 52) ≤ nodes := by
        calc 4 * 2 ^ (Nat.log2 nodes - 52)
            ≤ 2 ^ 52 * 2 ^ (Nat.log2 nodes - 52) :=
              Nat.mul_le_mul_right _ (by norm_num)
          _ = 2 ^ Nat.log2 nodes := by rw [Nat.mul_comm]; exact hsplit
          _ ≤ nodes := hpow
      have h1p : 1 ≤ 2 ^ (Nat.log2 nodes - 52) := Nat.one_le_two_pow
      have hqm : nodes / 2 ^ (Nat.log2 nodes - 52) * 2 ^ (Nat.log2 nodes - 52)
          ≤ nodes := Nat.div_mul_le_self _ _
      split
      · rw [Nat.add_mul, Nat.one_mul]
        omega
      · omega
  show (round53 nodes + f - 1) / f < nodes
  rw [Nat.div_lt_iff_lt_mul (by omega)]
  have hid : nodes * f = nodes * 2 + nodes * (f - 2) := by
    rw [← Nat.mul_add]
    congr 1
    omega
  have hge : f - 2 ≤ nodes * (f - 2) := Nat.le_mul_of_pos_left _ (by omega)
  omega

/-- The trace of per-level node counts that the real (float) loop of
`estimate_tree` produces when it does not overflow: like `levels` but with
the float-rounded update. -/
def levelsF (f : Nat) (hf : 2 ≤ f) (n : Nat) : List Nat :=
  if h : 1 < n then n :: levelsF f hf (float_ceil_div n f)
  else [n]
termination_by n
decreasing_by exact float_ceil_div_lt hf h

/-- The `while nodes > 1` loop of `estimate_tree` with the float division
modelled bit-exactly: `nodes / fanout` raises `OverflowError` when the
correctly rounded quotient reaches `2 ^ 1024` (i.e.
`round53 nodes ≥ fanout * 2 ^ 1024`), and otherwise equals
`float_ceil_div nodes fanout` after `math.ceil`. -/
def estimateLoopF (f : Nat) (hf : 2 ≤ f) (nodes height totalNodes : Nat)
    (perLevel : List Nat) : Except String TreeShape :=
  if h : 1 < nodes then
    if f * 2 ^ 1024 ≤ round53 nodes then
      .error "integer division result too large for a float"
    else
      estimateLoopF f hf (float_ceil_div nodes f) (height + 1)
        (totalNodes + nodes) (perLevel ++ [nodes])
  else
    .ok { height := height, totalNodes := totalNodes + nodes,
          nodesPerLevel := perLevel ++ [nodes] }
termination_by nodes
decreasing_by exact float_ceil_div_lt hf h

/-- `estimate_tree` from `app.py` with the floating-point division
modelled bit-exactly (validation as in the source, then `estimateLoopF`).
It agrees with `estimate_tree` for `leaves ≤ 2 ^ 53` and additionally
exhibits the rounded levels and the `OverflowError` path of the real code
beyond that. -/
def estimate_tree_float (leaves fanout : Int) : Except String TreeShape :=
  if leaves ≤ 0 then .error "leaves must be positive"
  else if h : fanout = 2 ∨ fanout = 4 ∨ fanout = 8 then
    estimateLoopF fanout.toNat
      (by rcases h with h | h | h <;> simp [h]) leaves.toNat 0 0 []
  else .error "fanout must be one of 2, 4, or 8"

/-- `build_layout` over the bit-exact float model of `estimate_tree`. -/
def build_layout_float (style : StyleProfile) (leaves fanout : Int) :
    Except String LayoutResult :=
  (estimate_tree_float leaves fanout).map fun tree =>
    { style := style.key
      styleName := style.name
      note := style.note
      leaves := leaves
      fanout := fanout
      treeHeight := tree.height
      totalNodes := tree.totalNodes
      nodesPerLevel := tree.nodesPerLevel
      hashBytes := style.hash_bytes
      proofBranchLength := tree.height
      perProofBytes := (tree.height + 1) * style.hash_bytes
      perProofBits := (tree.height + 1) * style.hash_bytes * 8
      totalCommitmentBytes := tree.totalNodes * style.hash_bytes }

/-- The second entry of a returned `nodesPerLevel` (the level after the
leaves), used to exhibit concrete level values. -/
def second_level (e : Except String TreeShape) : Option Nat :=
  match e with
  | .ok s => s.nodesPerLevel.tail.head?
  | .error _ => none

/-! ## Properties of ceiling division -/

theorem ceil_div_le_iff {a b m : Nat} (hb : 1 ≤ b) :
    ceil_div a b ≤ m ↔ a ≤ m * b := by
  unfold ceil_div
  rw [Nat.div_le_iff_le_mul_add_pred (by omega)]
  constructor <;> intro h
  · have : b * m = m * b := Nat.mul_comm _ _
    omega
  · have : b * m = m * b := Nat.mul_comm _ _
    omega

theorem ceil_div_lt_self {a b : Nat} (hb : 2 ≤ b) (ha : 1 < a) :
    ceil_div a b < a := by
  have h1 : ceil_div a b ≤ a - 1 := by
    rw [ceil_div_le_iff (by omega)]
    have h2 : a + b ≤ a * b := Nat.add_le_mul ha hb
    have h3 : (a - 1) * b = a * b - b := by
      rw [Nat.sub_mul, Nat.one_mul]
    omega
  omega

theorem ceil_div_pos {a b : Nat} (ha : 1 ≤ a) (hb : 1 ≤ b) :
    1 ≤ ceil_div a b := by
  rw [Nat.one_le_iff_ne_zero]
  intro h
  have : a ≤ 0 * b := (ceil_div_le_iff hb).mp (le_of_eq h)
  omega

theorem ceil_div_le_ceil_div_left {a a' b : Nat} (h : a ≤ a') (hb : 1 ≤ b) :
    ceil_div a b ≤ ceil_div a' b := by
  rw [ceil_div_le_iff hb]
  have : a' ≤ ceil_div a' b * b := (ceil_div_le_iff hb).mp (le_refl (ceil_div a' b))
  omega

theorem ceil_div_anti_right {a b b' : Nat} (hb : 1 ≤ b) (h : b ≤ b') :
    ceil_div a b' ≤ ceil_div a b := by
  rw [ceil_div_le_iff (by omega)]
  have h1 : a ≤ ceil_div a b * b := (ceil_div_le_iff hb).mp le_rfl
  exact le_trans h1 (Nat.mul_le_mul_left _ h)

/-! ## The level-reduction loop -/

theorem levels_eq_cons {f : Nat} (hf : 2 ≤ f) {n : Nat} (h : 1 < n) :
    levels f hf n = n :: levels f hf (ceil_div n f) := by
  rw [levels]
  rw [dif_pos h]

theorem levels_eq_single {f : Nat} (hf : 2 ≤ f) {n : Nat} (h : ¬ 1 < n) :
    levels f hf n = [n] := by
  rw [levels]
  rw [dif_neg h]

theorem levels_ne_nil (f : Nat) (hf : 2 ≤ f) (n : Nat) :
    levels f hf n ≠ [] := by
  rw [levels]
  split <;> simp

theorem levels_length_pos (f : Nat) (hf : 2 ≤ f) (n : Nat) :
    1 ≤ (levels f hf n).length :=
  List.length_pos.mpr (levels_ne_nil f hf n)

theorem levels_head (f : Nat) (hf : 2 ≤ f) (n : Nat) :
    (levels f hf n).head? = some n := by
  rw [levels]
  split <;> simp

/-- Unfolding the accumulator loop: `estimateLoop` produces the `levels`
list appended to the accumulator, with height counting the levels before
the root and `totalNodes` summing them all. -/
theorem estimateLoop_spec (f : Nat) (hf : 2 ≤ f) :
    ∀ n height totalNodes perLevel,
      estimateLoop f hf n height totalNodes perLevel =
        { height := height + ((levels f hf n).length - 1),
          totalNodes := totalNodes + (levels f hf n).sum,
          nodesPerLevel := perLevel ++ levels f hf n } := by
  intro n
  induction n using Nat.strong_induction_on with
  | _ n ih =>
    intro height totalNodes perLevel
    rw [estimateLoop, levels]
    split
    · next h =>
      rw [ih (ceil_div n f) (ceil_div_lt_self hf h)]
      have hpos := levels_length_pos f hf (ceil_div n f)
      simp only [List.length_cons, List.sum_cons, TreeShape.mk.injEq]
      refine ⟨by omega, by omega, by simp⟩
    · simp

theorem levels_getLast (f : Nat) (hf : 2 ≤ f) :
    ∀ n, 1 ≤ n → (levels f hf n).getLast? = some 1 := by
  intro n
  induction n using Nat.strong_induction_on with
  | _ n ih =>
    intro hn
    rw [levels]
    split
    · next h =>
      have hcd1 : 1 ≤ ceil_div n f := ceil_div_pos hn (by omega)
      have := ih (ceil_div n f) (ceil_div_lt_self hf h) hcd1
      cases hcd : levels f hf (ceil_div n f) with
      | nil => exact absurd hcd (levels_ne_nil f hf _)
      | cons a t =>
        rw [hcd] at this
        rw [List.getLast?_cons_cons]
        exact this
    · next h =>
      have : n = 1 := by omega
      simp [this]

theorem levels_chain (f : Nat) (hf : 2 ≤ f) :
    ∀ n, List.Chain' (fun a b => b = ceil_div a f) (levels f hf n) := by
  intro n
  induction n using Nat.strong_induction_on with
  | _ n ih =>
    rw [levels]
    split
    · next h =>
      refine List.chain'_cons'.mpr ⟨?_, ih (ceil_div n f) (ceil_div_lt_self hf h)⟩
      intro y hy
      rw [levels_head] at hy
      simp only [Option.mem_def, Option.some.injEq] at hy
      omega
    · exact List.chain'_singleton _

theorem levels_one (f : Nat) (hf : 2 ≤ f) : levels f hf 1 = [1] := by
  rw [levels]
  simp

/-- After `h` reduction steps the tree is a single node exactly when
`f ^ h` covers the leaves: the loop's height is large enough. -/
theorem le_pow_levels (f : Nat) (hf : 2 ≤ f) :
    ∀ n, 1 ≤ n → n ≤ f ^ ((levels f hf n).length - 1) := by
  intro n
  induction n using Nat.strong_induction_on with
  | _ n ih =>
    intro hn
    rw [levels]
    split
    · next h =>
      have hcd1 : 1 ≤ ceil_div n f := ceil_div_pos hn (by omega)
      have hlt := ceil_div_lt_self hf h
      have hrec := ih (ceil_div n f) hlt hcd1
      have hpos := levels_length_pos f hf (ceil_div n f)
      set L := (levels f hf (ceil_div n f)).length with hL
      have hlen : (n :: levels f hf (ceil_div n f)).length - 1 = L := by
        simp [hL]
      rw [hlen]
      have hL1 : L - 1 + 1 = L := by omega
      have : n ≤ f ^ (L - 1) * f := (ceil_div_le_iff (by omega)).mp hrec
      calc n ≤ f ^ (L - 1) * f := this
        _ = f ^ (L - 1 + 1) := (Nat.pow_succ f (L - 1)).symm
        _ = f ^ L := by rw [hL1]
    · next h =>
      have : n = 1 := by omega
      simp [this]

/-- The loop's height is minimal: below it, powers of the fanout do not
yet cover the leaves. -/
theorem pow_lt_levels (f : Nat) (hf : 2 ≤ f) :
    ∀ n k, k < (levels f hf n).length - 1 → f ^ k < n := by
  intro n
  induction n using Nat.strong_induction_on with
  | _ n ih =>
    intro k hk
    rw [levels] at hk
    split at hk
    · next h =>
      simp only [List.length_cons] at hk
      cases k with
      | zero => simpa using h
      | succ j =>
        have hj : j < (levels f hf (ceil_div n f)).length - 1 := by
          have hpos := levels_length_pos f hf (ceil_div n f)
          omega
        have hrec := ih (ceil_div n f) (ceil_div_lt_self hf h) j hj
        have : ¬ ceil_div n f ≤ f ^ j := by omega
        rw [ceil_div_le_iff (by omega)] at this
        rw [Nat.pow_succ]
        omega
    · next h =>
      simp at hk

theorem levels_height_le {f : Nat} {hf : 2 ≤ f} {n k : Nat}
    (h : n ≤ f ^ k) : (levels f hf n).length - 1 ≤ k := by
  by_contra hc
  have := pow_lt_levels f hf n k (by omega)
  omega

theorem le_levels_height {f : Nat} {hf : 2 ≤ f} {n k : Nat}
    (hn : 1 ≤ n) (h : f ^ k < n) : k + 1 ≤ (levels f hf n).length - 1 := by
  by_contra hc
  have h1 := le_pow_levels f hf n hn
  have h2 : f ^ ((levels f hf n).length - 1) ≤ f ^ k :=
    Nat.pow_le_pow_right (by omega) (by omega)
  omega

/-- Successful runs of `estimate_tree` on valid inputs are exactly the
`levels` reduction starting at `leaves`. -/
theorem estimate_tree_ok {leaves : Nat} {fanout : Int}
    (h1 : 1 ≤ leaves) (h2 : fanout = 2 ∨ fanout = 4 ∨ fanout = 8) :
    ∃ hf : 2 ≤ fanout.toNat,
      estimate_tree (leaves : Int) fanout =
        .ok { height := (levels fanout.toNat hf leaves).length - 1,
              totalNodes := (levels fanout.toNat hf leaves).sum,
              nodesPerLevel := levels fanout.toNat hf leaves } := by
  have hf : 2 ≤ fanout.toNat := by
    rcases h2 with h | h | h <;> simp [h]
  refine ⟨hf, ?_⟩
  unfold estimate_tree
  rw [if_neg (by omega), dif_pos h2]
  rw [estimateLoop_spec]
  simp

/-! ## Claim C3: derived layout quantities -/

/-- C3: every successful `build_layout` result satisfies
`proofBranchLength = treeHeight`,
`perProofBytes = (proofBranchLength + 1) * hashBytes`,
`perProofBits = perProofBytes * 8` and
`totalCommitmentBytes = totalNodes * hashBytes`; and concretely, one
million leaves at fanout 2 under the aztec style (32-byte hashes) give
tree height 20 and 672 proof bytes. -/
theorem claim_C3_layout_formulas :
    (∀ (style : StyleProfile) (leaves : Nat) (fanout : Int),
      1 ≤ leaves → (fanout = 2 ∨ fanout = 4 ∨ fanout = 8) →
      ∀ r, build_layout style (leaves : Int) fanout = .ok r →
        r.proofBranchLength = r.treeHeight ∧
        r.perProofBytes = (r.proofBranchLength + 1) * r.hashBytes ∧
        r.perProofBits = r.perProofBytes * 8 ∧
        r.totalCommitmentBytes = r.totalNodes * r.hashBytes) ∧
    (∀ (s : StyleProfile) (r : LayoutResult), STYLES "aztec" = some s →
      build_layout s ((1000000 : Nat) : Int) 2 = .ok r →
      r.treeHeight = 20 ∧ r.perProofBytes = 672) := by
  constructor
  · intro style leaves fanout h1 h2 r hr
    obtain ⟨hf, heq⟩ := estimate_tree_ok h1 h2
    unfold build_layout at hr
    rw [heq] at hr
    simp only [Except.map] at hr
    injection hr with hr'
    subst hr'
    exact ⟨rfl, rfl, rfl, rfl⟩
  · intro s r hsty hr
    have hs : s =
        { key := "aztec", name := "Aztec-style privacy rollup",
          hash_bytes := 32,
          note := "Optimised for zk commitments over encrypted state roots." } := by
      simp [STYLES] at hsty
      exact hsty.symm
    obtain ⟨hf, heq⟩ :=
      @estimate_tree_ok 1000000 2 (by norm_num) (by norm_num)
    unfold build_layout at hr
    rw [heq] at hr
    simp only [Except.map] at hr
    injection hr with hr'
    subst hr'
    have h2N : (2 : Int).toNat = 2 := rfl
    have hup : (levels (2 : Int).toNat hf 1000000).length - 1 ≤ 20 := by
      apply levels_height_le
      rw [h2N]
      norm_num
    have hlo : 19 + 1 ≤ (levels (2 : Int).toNat hf 1000000).length - 1 := by
      apply le_levels_height (by norm_num)
      rw [h2N]
      norm_num
    have hh : (levels (2 : Int).toNat hf 1000000).length - 1 = 20 := by omega
    refine ⟨hh, ?_⟩
    show ((levels (2 : Int).toNat hf 1000000).length - 1 + 1) * s.hash_bytes = 672
    rw [hh, hs]
    norm_num

theorem claim_C3_witness :
    (3 : Nat) = 3 ∧ (128 : Nat) = (3 + 1) * 32 ∧
    (1024 : Nat) = 128 * 8 ∧ (384 : Nat) = 12 * 32 :=
  claim_C3_layout_formulas.1
    { key := "aztec", name := "Aztec-style privacy rollup", hash_bytes := 32,
      note := "Optimised for zk commitments over encrypted state roots." }
    6 2 (by norm_num) (by norm_num)
    { style := "aztec", styleName := "Aztec-style privacy rollup",
      note := "Optimised for zk commitments over encrypted state roots.",
      leaves := 6, fanout := 2, treeHeight := 3, totalNodes := 12,
      nodesPerLevel := [6, 3, 2, 1], hashBytes := 32,
      proofBranchLength := 3, perProofBytes := 128, perProofBits := 1024,
      totalCommitmentBytes := 384 }
    (by simp [build_layout, estimate_tree, estimateLoop, ceil_div,
      Except.map])

/-! ## Claims C6 and C7: best-layout selection -/

/-- Scanning a candidate list with `select_step` (Python's `min` with a
key) returns an element that splits the list into strictly-larger earlier
candidates and no-smaller later candidates: the first minimum. -/
theorem select_step_split (metric : String) :
    ∀ (xs : List LayoutRun) (b : LayoutRun),
      ∃ l1 l2,
        b :: xs = l1 ++ (xs.foldl (select_step metric) b) :: l2 ∧
        (∀ c ∈ l1,
          metric_value (xs.foldl (select_step metric) b).data metric <
            metric_value c.data metric) ∧
        (∀ c ∈ l2,
          metric_value (xs.foldl (select_step metric) b).data metric ≤
            metric_value c.data metric) := by
  intro xs
  induction xs with
  | nil =>
    intro b
    exact ⟨[], [], by simp, by simp, by simp⟩
  | cons y ys ih =>
    intro b
    rw [List.foldl_cons]
    obtain ⟨l1, l2, hdec, hlt, hle⟩ := ih (select_step metric b y)
    by_cases hky : metric_value y.data metric < metric_value b.data metric
    · have hstep : select_step metric b y = y := if_pos hky
      rw [hstep] at hdec hlt hle ⊢
      have hmy : metric_value ((ys.foldl (select_step metric) y)).data metric ≤
          metric_value y.data metric := by
        cases l1 with
        | nil =>
          simp only [List.nil_append] at hdec
          injection hdec with h1 h2
          rw [← h1]
        | cons c0 l1' =>
          rw [List.cons_append] at hdec
          injection hdec with h1 h2
          exact le_of_lt (h1 ▸ hlt c0 (by simp))
      refine ⟨b :: l1, l2, ?_, ?_, hle⟩
      · rw [List.cons_append, ← hdec]
      · intro c hc
        rcases List.mem_cons.mp hc with rfl | hc
        · exact lt_of_le_of_lt hmy hky
        · exact hlt c hc
    · have hstep : select_step metric b y = b := if_neg hky
      have hby : metric_value b.data metric ≤ metric_value y.data metric :=
        le_of_not_lt hky
      rw [hstep] at hdec hlt hle ⊢
      cases l1 with
      | nil =>
        simp only [List.nil_append] at hdec
        injection hdec with h1 h2
        refine ⟨[], y :: ys, ?_, by simp, ?_⟩
        · rw [List.nil_append, ← h1]
        · intro c hc
          rcases List.mem_cons.mp hc with rfl | hc
          · rw [← h1]
            exact hby
          · rw [h2] at hc
            exact hle c hc
      | cons c0 l1' =>
        rw [List.cons_append] at hdec
        injection hdec with h1 h2
        have hmb : metric_value ((ys.foldl (select_step metric) b)).data metric <
            metric_value b.data metric := h1 ▸ hlt c0 (by simp)
        refine ⟨b :: y :: l1', l2, ?_, ?_, hle⟩
        · rw [List.cons_append, List.cons_append, ← h2]
        · intro c hc
          rcases List.mem_cons.mp hc with rfl | hc
          · exact hmb
          rcases List.mem_cons.mp hc with rfl | hc
          · exact lt_of_lt_of_le hmb hby
          · exact hlt c (by simp [hc])

/-- C6: on a non-empty candidate list the selector returns a candidate
achieving the minimum metric value, and it is the first such candidate in
input order (every earlier candidate is strictly larger); in particular
two candidates with equal metric values select the first, e.g. fanout 2
from `[2, 4]`. -/
theorem claim_C6_min_selection :
    (∀ (layouts : List LayoutRun) (metric : String), layouts ≠ [] →
      ∃ best l1 l2, choose_best layouts metric = some best ∧
        layouts = l1 ++ best :: l2 ∧
        (∀ c ∈ layouts,
          metric_value best.data metric ≤ metric_value c.data metric) ∧
        (∀ c ∈ l1,
          metric_value best.data metric < metric_value c.data metric)) ∧
    (∀ (d : String → Option Nat) (metric : String),
      choose_best [⟨2, d⟩, ⟨4, d⟩] metric = some ⟨2, d⟩) := by
  constructor
  · intro layouts metric hne
    match layouts with
    | x :: xs =>
      obtain ⟨l1, l2, hdec, hlt, hle⟩ := select_step_split metric xs x
      refine ⟨xs.foldl (select_step metric) x, l1, l2, rfl, hdec, ?_, hlt⟩
      intro c hc
      rw [hdec] at hc
      rcases List.mem_append.mp hc with hc | hc
      · exact le_of_lt (hlt c hc)
      rcases List.mem_cons.mp hc with rfl | hc
      · exact le_rfl
      · exact hle c hc
  · intro d metric
    simp [choose_best, select_step]

theorem claim_C6_witness :
    ∃ best l1 l2,
      choose_best
        [⟨2, fun m => if m = "totalCommitmentBytes" then some 100 else none⟩,
         ⟨4, fun m => if m = "totalCommitmentBytes" then some 100 else none⟩]
        "totalCommitmentBytes" = some best ∧
      [⟨2, fun m => if m = "totalCommitmentBytes" then some 100 else none⟩,
       ⟨4, fun m => if m = "totalCommitmentBytes" then some 100 else none⟩] =
        l1 ++ best :: l2 ∧
      (∀ c ∈
        [(⟨2, fun m => if m = "totalCommitmentBytes" then some 100 else none⟩ :
            LayoutRun),
         ⟨4, fun m => if m = "totalCommitmentBytes" then some 100 else none⟩],
        metric_value best.data "totalCommitmentBytes" ≤
          metric_value c.data "totalCommitmentBytes") ∧
      (∀ c ∈ l1,
        metric_value best.data "totalCommitmentBytes" <
          metric_value c.data "totalCommitmentBytes") :=
  claim_C6_min_selection.1
    [⟨2, fun m => if m = "totalCommitmentBytes" then some 100 else none⟩,
     ⟨4, fun m => if m = "totalCommitmentBytes" then some 100 else none⟩]
    "totalCommitmentBytes" (by simp)

/-- C7: a candidate with the metric absent is valued `+infinity`, and is
never selected while some candidate has the metric present. -/
theorem claim_C7_missing_metric :
    (∀ (data : String → Option Nat) (metric : String),
      data metric = none → metric_value data metric = ⊤) ∧
    (∀ (layouts : List LayoutRun) (metric : String) (best : LayoutRun),
      choose_best layouts metric = some best →
      (∃ c ∈ layouts, (c.data metric).isSome) →
      (best.data metric).isSome) := by
  constructor
  · intro data metric h
    simp [metric_value, h]
  · intro layouts metric best hbest hex
    obtain ⟨c, hc, hcsome⟩ := hex
    match layouts, hbest with
    | x :: xs, hbest =>
      injection hbest with hbe
      obtain ⟨l1, l2, hdec, hlt, hle⟩ := select_step_split metric xs x
      have hmin : metric_value best.data metric ≤ metric_value c.data metric := by
        rw [← hbe] at *
        rw [hdec] at hc
        rcases List.mem_append.mp hc with hcm | hcm
        · exact le_of_lt (hlt c hcm)
        rcases List.mem_cons.mp hcm with rfl | hcm
        · exact le_rfl
        · exact hle c hcm
      obtain ⟨v, hv⟩ := Option.isSome_iff_exists.mp hcsome
      rw [show metric_value c.data metric = (v : WithTop Nat) by
        simp [metric_value, hv]] at hmin
      cases hbm : best.data metric with
      | none =>
        rw [show metric_value best.data metric = ⊤ by
          simp [metric_value, hbm]] at hmin
        exact absurd hmin (WithTop.not_top_le_coe v)
      | some w => simp

/-! ## Claims C8 and C10: the sweep's leaf-count sequence -/

theorem log2_two_pow (k : Nat) : Nat.log2 (2 ^ k) = k := by
  rw [Nat.log2_eq_log_two]
  exact Nat.log_pow (by norm_num) k

theorem isPow2_two_pow (k : Nat) : isPow2 (2 ^ k) = true := by
  unfold isPow2
  rw [log2_two_pow]
  simp

theorem isPow2_eq_pow {n : Nat} (h : isPow2 n = true) :
    n = 2 ^ Nat.log2 n := by
  unfold isPow2 at h
  rw [beq_iff_eq] at h
  exact h

theorem mem_doubleLoop (leaf_max : Nat) :
    ∀ (k n : Nat) (hn : 1 ≤ n), leaf_max + 1 - n = k →
      ∀ x, x ∈ doubleLoop leaf_max n hn ↔
        ∃ i, x = n * 2 ^ i ∧ x ≤ leaf_max := by
  intro k
  induction k using Nat.strong_induction_on with
  | _ k ih =>
    intro n hn hk x
    rw [doubleLoop]
    split
    · next hle =>
      rw [List.mem_cons,
        ih (leaf_max + 1 - n * 2) (by omega) (n * 2) (by omega) rfl x]
      constructor
      · rintro (rfl | ⟨i, rfl, hx⟩)
        · exact ⟨0, by simp, hle⟩
        · exact ⟨i + 1, by ring, hx⟩
      · rintro ⟨i, rfl, hx⟩
        cases i with
        | zero => left; simp
        | succ j => right; exact ⟨j, by ring, hx⟩
    · next hgt =>
      simp only [List.not_mem_nil, false_iff]
      rintro ⟨i, rfl, hx⟩
      have hpow : 1 ≤ 2 ^ i := Nat.one_le_two_pow
      have : n ≤ n * 2 ^ i := Nat.le_mul_of_pos_right n (by omega)
      omega

theorem doubleLoop_sorted (leaf_max : Nat) :
    ∀ (k n : Nat) (hn : 1 ≤ n), leaf_max + 1 - n = k →
      List.Sorted (· < ·) (doubleLoop leaf_max n hn) := by
  intro k
  induction k using Nat.strong_induction_on with
  | _ k ih =>
    intro n hn hk
    rw [doubleLoop]
    split
    · next hle =>
      rw [List.sorted_cons]
      refine ⟨?_, ih (leaf_max + 1 - n * 2) (by omega) (n * 2) (by omega) rfl⟩
      intro b hb
      rw [mem_doubleLoop leaf_max (leaf_max + 1 - n * 2) (n * 2) (by omega)
        rfl b] at hb
      obtain ⟨i, rfl, hbx⟩ := hb
      have hpow : 1 ≤ 2 ^ i := Nat.one_le_two_pow
      have : n * 2 ≤ n * 2 * 2 ^ i := Nat.le_mul_of_pos_right _ (by omega)
      omega
    · exact List.sorted_nil

theorem mem_powLoop (end_pow s : Nat) (hs : 1 ≤ s) :
    ∀ (k p : Nat), end_pow + 1 - p = k →
      ∀ x, x ∈ powLoop end_pow s hs p ↔
        ∃ i, x = 2 ^ (p + i * s) ∧ p + i * s ≤ end_pow := by
  intro k
  induction k using Nat.strong_induction_on with
  | _ k ih =>
    intro p hk x
    rw [powLoop]
    split
    · next hle =>
      rw [List.mem_cons,
        ih (end_pow + 1 - (p + s)) (by omega) (p + s) rfl x]
      constructor
      · rintro (rfl | ⟨i, rfl, hx⟩)
        · exact ⟨0, by simp, by simpa using hle⟩
        · refine ⟨i + 1, ?_, ?_⟩
          · congr 1
            ring
          · have : p + s + i * s = p + (i + 1) * s := by ring
            omega
      · rintro ⟨i, rfl, hx⟩
        cases i with
        | zero => left; simp
        | succ j =>
          right
          refine ⟨j, ?_, ?_⟩
          · congr 1
            ring
          · have : p + (j + 1) * s = p + s + j * s := by ring
            omega
    · next hgt =>
      simp only [List.not_mem_nil, false_iff]
      rintro ⟨i, rfl, hx⟩
      omega

theorem powLoop_sorted (end_pow s : Nat) (hs : 1 ≤ s) :
    ∀ (k p : Nat), end_pow + 1 - p = k →
      List.Sorted (· < ·) (powLoop end_pow s hs p) := by
  intro k
  induction k using Nat.strong_induction_on with
  | _ k ih =>
    intro p hk
    rw [powLoop]
    split
    · next hle =>
      rw [List.sorted_cons]
      refine ⟨?_, ih (end_pow + 1 - (p + s)) (by omega) (p + s) rfl⟩
      intro b hb
      rw [mem_powLoop end_pow s hs (end_pow + 1 - (p + s)) (p + s) rfl b] at hb
      obtain ⟨i, rfl, hbx⟩ := hb
      exact Nat.pow_lt_pow_right (by norm_num) (by omega)
    · exact List.sorted_nil

/-- The sweep's leaf-count policy as the spec states it (branching on the
exact power-of-two test): exponent-stepped powers of two from
`log2(leafMin)` to `log2(leafMax)` when both endpoints are powers of two,
and repeated doubling from `leafMin` otherwise; with `leafMin = 1024`,
`leafMax = 65536`, `logStep = 2` the sequence is
`[1024, 4096, 16384, 65536]`. -/
theorem generate_leaf_counts_policy :
    (∀ (leaf_min leaf_max step : Nat), 1 ≤ leaf_min → leaf_min ≤ leaf_max →
      ∀ hs : 1 ≤ step,
      ∃ l, generate_leaf_counts leaf_min leaf_max step hs = .ok l ∧
        List.Sorted (· < ·) l ∧
        ((isPow2 leaf_min = true ∧ isPow2 leaf_max = true) →
          ∀ x, x ∈ l ↔
            ∃ i, x = 2 ^ (Nat.log2 leaf_min + i * step) ∧
              Nat.log2 leaf_min + i * step ≤ Nat.log2 leaf_max) ∧
        (¬(isPow2 leaf_min = true ∧ isPow2 leaf_max = true) →
          ∀ x, x ∈ l ↔ ∃ i, x = leaf_min * 2 ^ i ∧ x ≤ leaf_max)) ∧
    generate_leaf_counts 1024 65536 2 (by norm_num) =
      .ok [1024, 4096, 16384, 65536] := by
  constructor
  · intro leaf_min leaf_max step h1 h2 hs
    unfold generate_leaf_counts
    rw [dif_neg (by omega)]
    by_cases hp : isPow2 leaf_min = true ∧ isPow2 leaf_max = true
    · rw [if_neg (by simp [hp.1, hp.2])]
      refine ⟨_, rfl, powLoop_sorted _ _ _ _ _ rfl, fun _ x => ?_, fun h => absurd hp h⟩
      exact mem_powLoop _ _ _ _ _ rfl x
    · rw [if_pos ?side]
      case side =>
        rcases Decidable.not_and_iff_or_not.mp hp with h | h <;>
          simp [Bool.not_eq_true] at h <;> simp [h]
      refine ⟨_, rfl, doubleLoop_sorted _ _ _ _ rfl, fun h => absurd h hp,
        fun _ x => ?_⟩
      exact mem_doubleLoop _ _ _ _ rfl x
  · have hmin : isPow2 1024 = true := by
      have := isPow2_two_pow 10
      norm_num at this
      exact this
    have hmax : isPow2 65536 = true := by
      have := isPow2_two_pow 16
      norm_num at this
      exact this
    have hl1 : Nat.log2 1024 = 10 := by
      have := log2_two_pow 10
      norm_num at this
      exact this
    have hl2 : Nat.log2 65536 = 16 := by
      have := log2_two_pow 16
      norm_num at this
      exact this
    unfold generate_leaf_counts
    rw [dif_neg (by omega), if_neg (by simp [hmin, hmax]), hl1, hl2]
    simp [powLoop]

/-- C10: every leaf count produced by `generate_leaf_counts` on a valid
range lies between `leafMin` and `leafMax` inclusive.  This is the range
invariant of the spec's branch policy (exact power-of-two test); the
code's float test breaks it at `leafMin = leafMax = 2 ^ 53 + 1`, where the
misclassified exponent branch emits `2 ^ 53 < leafMin`. -/
theorem claim_C10_range (leaf_min leaf_max step : Nat) (h1 : 1 ≤ leaf_min)
    (h2 : leaf_min ≤ leaf_max) (hs : 1 ≤ step) (l : List Nat)
    (hl : generate_leaf_counts leaf_min leaf_max step hs = .ok l) :
    ∀ x ∈ l, leaf_min ≤ x ∧ x ≤ leaf_max := by
  intro x hx
  unfold generate_leaf_counts at hl
  rw [dif_neg (by omega)] at hl
  by_cases hp : isPow2 leaf_min = true ∧ isPow2 leaf_max = true
  · rw [if_neg (by simp [hp.1, hp.2])] at hl
    injection hl with hl'
    subst hl'
    rw [mem_powLoop _ _ _ _ _ rfl x] at hx
    obtain ⟨i, rfl, hix⟩ := hx
    constructor
    · calc leaf_min = 2 ^ Nat.log2 leaf_min := isPow2_eq_pow hp.1
        _ ≤ 2 ^ (Nat.log2 leaf_min + i * step) :=
          Nat.pow_le_pow_right (by norm_num) (by omega)
    · calc 2 ^ (Nat.log2 leaf_min + i * step) ≤ 2 ^ Nat.log2 leaf_max :=
          Nat.pow_le_pow_right (by norm_num) hix
        _ = leaf_max := (isPow2_eq_pow hp.2).symm
  · rw [if_pos ?side] at hl
    case side =>
      rcases Decidable.not_and_iff_or_not.mp hp with h | h <;>
        simp [Bool.not_eq_true] at h <;> simp [h]
    injection hl with hl'
    subst hl'
    rw [mem_doubleLoop _ _ _ _ rfl x] at hx
    obtain ⟨i, rfl, hix⟩ := hx
    have hpow : 1 ≤ 2 ^ i := Nat.one_le_two_pow
    have : leaf_min ≤ leaf_min * 2 ^ i :=
      Nat.le_mul_of_pos_right _ (by omega)
    exact ⟨this, hix⟩

theorem claim_C10_witness : (3 : Nat) ≤ 6 ∧ (6 : Nat) ≤ 10 := by
  have h3 : Nat.log2 3 = 1 := by simp [Nat.log2]
  have hp3 : isPow2 3 = false := by
    unfold isPow2
    rw [h3]
    norm_num
  exact claim_C10_range 3 10 1 (by norm_num) (by norm_num) (by norm_num)
    [3, 6]
    (by
      unfold generate_leaf_counts
      rw [dif_neg (by omega), if_pos (by simp [hp3])]
      simp [doubleLoop])
    6 (by simp)

/-! ## Claim C1: the closed-form sizer's height

`compute_layout` in `layout_sizer.py` computes
`height = math.ceil(math.log(leaves, arity))` with floating-point
logarithms, although both its own comment ("Minimal height h such that
arity**h >= leaves") and the spec demand the exact smallest such `h`,
computed by an integer-safe method.  `spec_min_height` above is that
specification; here we prove it really is the least height, and that at
`leaves = 2 ^ 29`, `arity = 2` the least height is `29` — whereas
`math.ceil(math.log(2 ** 29, 2))` evaluates to `30` because
`math.log(2 ** 29, 2) = 29.000000000000004` in IEEE double precision. -/

theorem spec_height_loop_ge (arity : Nat) (ha : 2 ≤ arity) (leaves : Nat) :
    ∀ (k p : Nat) (hp : 1 ≤ p) (h : Nat), leaves - p = k → arity ^ h = p →
      leaves ≤ arity ^ (spec_height_loop arity ha leaves p hp h) := by
  intro k
  induction k using Nat.strong_induction_on with
  | _ k ih =>
    intro p hp h hk hpow
    rw [spec_height_loop]
    split
    · next hlt =>
      have hgrow : p + 1 ≤ p * arity := by
        have := Nat.mul_le_mul (Nat.le_refl p) ha
        omega
      refine ih (leaves - p * arity) (by omega) (p * arity) (by omega)
        (h + 1) rfl ?_
      rw [Nat.pow_succ, hpow]
    · next hge =>
      rw [hpow]
      omega

theorem spec_height_loop_min (arity : Nat) (ha : 2 ≤ arity) (leaves : Nat) :
    ∀ (k p : Nat) (hp : 1 ≤ p) (h : Nat), leaves - p = k → arity ^ h = p →
      (∀ j, j < h → arity ^ j < leaves) →
      ∀ m, m < spec_height_loop arity ha leaves p hp h → arity ^ m < leaves := by
  intro k
  induction k using Nat.strong_induction_on with
  | _ k ih =>
    intro p hp h hk hpow hinv m hm
    rw [spec_height_loop] at hm
    split at hm
    · next hlt =>
      have hgrow : p + 1 ≤ p * arity := by
        have := Nat.mul_le_mul (Nat.le_refl p) ha
        omega
      refine ih (leaves - p * arity) (by omega) (p * arity) (by omega)
        (h + 1) rfl (by rw [Nat.pow_succ, hpow]) ?_ m hm
      intro j hj
      by_cases hjh : j < h
      · exact hinv j hjh
      · have : j = h := by omega
        rw [this, hpow]
        exact hlt
    · exact hinv m hm

/-- The integer-safe accumulator of the spec computes exactly the least
`h` with `arity ^ h ≥ leaves`. -/
theorem spec_min_height_is_least (leaves arity : Nat) (ha : 2 ≤ arity)
    (hl : 1 ≤ leaves) :
    leaves ≤ arity ^ (spec_min_height leaves arity ha) ∧
    ∀ m, m < spec_min_height leaves arity ha → arity ^ m < leaves := by
  unfold spec_min_height
  constructor
  · exact spec_height_loop_ge arity ha leaves (leaves - 1) 1 (by omega) 0
      rfl (by norm_num)
  · exact spec_height_loop_min arity ha leaves (leaves - 1) 1 (by omega) 0
      rfl (by norm_num) (by omega)

/-- C1: at `leaves = 536870912 = 2 ^ 29`, `arity = 2`, the height that the
spec (and the code's own comment) mandates is the least `h` with
`2 ^ h ≥ 2 ^ 29`, namely `29` — not the `30` that
`math.ceil(math.log(536870912, 2))` produces in `compute_layout`. -/
theorem claim_C1_exact_height_at_bug_input :
    spec_min_height 536870912 2 (by norm_num) = 29 ∧
    spec_min_height 536870912 2 (by norm_num) ≠ 30 ∧
    (∀ h : Nat, 536870912 ≤ 2 ^ h ↔ 29 ≤ h) := by
  have hiff : ∀ h : Nat, 536870912 ≤ 2 ^ h ↔ 29 ≤ h := by
    intro h
    constructor
    · intro hle
      by_contra hc
      have h28 : 2 ^ h ≤ 2 ^ 28 := Nat.pow_le_pow_right (by norm_num) (by omega)
      norm_num at h28
      omega
    · intro hge
      calc (536870912 : Nat) = 2 ^ 29 := by norm_num
        _ ≤ 2 ^ h := Nat.pow_le_pow_right (by norm_num) hge
  obtain ⟨hge, hmin⟩ :=
    spec_min_height_is_least 536870912 2 (by norm_num) (by norm_num)
  have h29 : 29 ≤ spec_min_height 536870912 2 (by norm_num) :=
    (hiff _).mp hge
  have h29' : spec_min_height 536870912 2 (by norm_num) ≤ 29 := by
    by_contra hc
    have := hmin 29 (by omega)
    norm_num at this
  exact ⟨by omega, by omega, hiff⟩

theorem claim_C1_witness : (536870912 : Nat) ≤ 2 ^ 30 :=
  (claim_C1_exact_height_at_bug_input.2.2 30).mpr (by norm_num)

theorem claim_C7_witness :
    (((⟨4, fun _ => some 5⟩ : LayoutRun)).data "treeHeight").isSome :=
  claim_C7_missing_metric.2
    [⟨2, fun _ => none⟩, ⟨4, fun _ => some 5⟩] "treeHeight"
    ⟨4, fun _ => some 5⟩
    (by simp [choose_best, select_step, metric_value])
    ⟨⟨4, fun _ => some 5⟩, by simp, by simp⟩

/-! ## The floating-point division model -/

theorem log2_eq_of_bounds {n b : Nat} (h1 : 2 ^ b ≤ n) (h2 : n < 2 ^ (b + 1)) :
    Nat.log2 n = b := by
  have hp : 1 ≤ 2 ^ b := Nat.one_le_two_pow
  have hn : n ≠ 0 := by omega
  have hub := (Nat.log2_lt hn).mpr h2
  have hlb := (Nat.le_log2 hn).mpr h1
  omega

theorem round53_eq_of_le {n : Nat} (h : n ≤ 2 ^ 53) : round53 n = n := by
  unfold round53
  by_cases hlt : n < 2 ^ 53
  · rw [if_pos hlt]
  · rw [if_neg hlt]
    have hn : n = 2 ^ 53 := by omega
    subst hn
    rw [log2_two_pow]
    norm_num

theorem round53_lower {n : Nat} (h : 2 ^ 53 ≤ n) :
    2 ^ Nat.log2 n ≤ round53 n := by
  unfold round53
  rw [if_neg (by omega)]
  have hlog : 53 ≤ Nat.log2 n := (Nat.le_log2 (by omega)).mpr h
  have hsplit : 2 ^ 52 * 2 ^ (Nat.log2 n - 52) = 2 ^ Nat.log2 n := by
    rw [← Nat.pow_add]
    congr 1
    omega
  have hpow : 2 ^ Nat.log2 n ≤ n := Nat.log2_self_le (by omega)
  have hq : 2 ^ 52 ≤ n / 2 ^ (Nat.log2 n - 52) := by
    rw [Nat.le_div_iff_mul_le (Nat.pos_pow_of_pos _ (by norm_num))]
    rw [hsplit]
    exact hpow
  split
  · calc 2 ^ Nat.log2 n = 2 ^ 52 * 2 ^ (Nat.log2 n - 52) := hsplit.symm
      _ ≤ n / 2 ^ (Nat.log2 n - 52) * 2 ^ (Nat.log2 n - 52) :=
        Nat.mul_le_mul_right _ hq
      _ ≤ (n / 2 ^ (Nat.log2 n - 52) + 1) * 2 ^ (Nat.log2 n - 52) :=
        Nat.mul_le_mul_right _ (by omega)
  · calc 2 ^ Nat.log2 n = 2 ^ 52 * 2 ^ (Nat.log2 n - 52) := hsplit.symm
      _ ≤ n / 2 ^ (Nat.log2 n - 52) * 2 ^ (Nat.log2 n - 52) :=
        Nat.mul_le_mul_right _ hq

theorem round53_upper {n : Nat} (h : 2 ^ 53 ≤ n) :
    round53 n ≤ 2 ^ (Nat.log2 n + 1) := by
  unfold round53
  rw [if_neg (by omega)]
  have hlog : 53 ≤ Nat.log2 n := (Nat.le_log2 (by omega)).mpr h
  have hsplit : 2 ^ 53 * 2 ^ (Nat.log2 n - 52) = 2 ^ (Nat.log2 n + 1) := by
    rw [← Nat.pow_add]
    congr 1
    omega
  have hub : n < 2 ^ (Nat.log2 n + 1) := Nat.lt_log2_self
  have hq : n / 2 ^ (Nat.log2 n - 52) < 2 ^ 53 := by
    rw [Nat.div_lt_iff_lt_mul (Nat.pos_pow_of_pos _ (by norm_num))]
    rw [hsplit]
    exact hub
  split
  · calc (n / 2 ^ (Nat.log2 n - 52) + 1) * 2 ^ (Nat.log2 n - 52)
        ≤ 2 ^ 53 * 2 ^ (Nat.log2 n - 52) := Nat.mul_le_mul_right _ (by omega)
      _ = 2 ^ (Nat.log2 n + 1) := hsplit
  · calc n / 2 ^ (Nat.log2 n - 52) * 2 ^ (Nat.log2 n - 52)
        ≤ 2 ^ 53 * 2 ^ (Nat.log2 n - 52) := Nat.mul_le_mul_right _ (by omega)
      _ = 2 ^ (Nat.log2 n + 1) := hsplit

theorem round53_pos {n : Nat} (h : 1 ≤ n) : 1 ≤ round53 n := by
  by_cases hs : n ≤ 2 ^ 53
  · rw [round53_eq_of_le hs]
    exact h
  · calc 1 ≤ 2 ^ Nat.log2 n := Nat.one_le_two_pow
      _ ≤ round53 n := round53_lower (by omega)

/-- Round-to-nearest-even is monotone, hence so is the float value of an
integer operand. -/
theorem round53_mono {m n : Nat} (h : m ≤ n) : round53 m ≤ round53 n := by
  by_cases hm : m ≤ 2 ^ 53
  · rw [round53_eq_of_le hm]
    by_cases hn : n ≤ 2 ^ 53
    · rw [round53_eq_of_le hn]
      exact h
    · calc m ≤ 2 ^ 53 := hm
        _ ≤ 2 ^ Nat.log2 n := Nat.pow_le_pow_right (by norm_num)
            ((Nat.le_log2 (by omega)).mpr (by omega))
        _ ≤ round53 n := round53_lower (by omega)
  · have hm' : 2 ^ 53 ≤ m := by omega
    have hn' : 2 ^ 53 ≤ n := le_trans hm' h
    have hmono : Nat.log2 m ≤ Nat.log2 n := by
      rw [Nat.log2_eq_log_two, Nat.log2_eq_log_two]
      exact Nat.log_mono_right h
    by_cases hb : Nat.log2 m < Nat.log2 n
    · calc round53 m ≤ 2 ^ (Nat.log2 m + 1) := round53_upper hm'
        _ ≤ 2 ^ Nat.log2 n := Nat.pow_le_pow_right (by norm_num) (by omega)
        _ ≤ round53 n := round53_lower hn'
    · have hbe : Nat.log2 m = Nat.log2 n := by omega
      unfold round53
      rw [if_neg (by omega : ¬ m < 2 ^ 53), if_neg (by omega : ¬ n < 2 ^ 53),
        hbe]
      set s := Nat.log2 n - 52 with hs
      have hsp : 1 ≤ 2 ^ s := Nat.one_le_two_pow
      have hq : m / 2 ^ s ≤ n / 2 ^ s := Nat.div_le_div_right h
      have hdm := Nat.div_add_mod m (2 ^ s)
      have hdn := Nat.div_add_mod n (2 ^ s)
      by_cases hqe : m / 2 ^ s = n / 2 ^ s
      · rw [hqe] at hdm ⊢
        have hr : m % 2 ^ s ≤ n % 2 ^ s := by omega
        split
        · next hup =>
          split
          · next => exact le_rfl
          · next hdn2 =>
            exfalso
            rcases hup with h1 | ⟨h2, h3⟩
            · exact hdn2 (Or.inl (by omega))
            · rcases Nat.lt_or_ge (2 ^ (s - 1)) (n % 2 ^ s) with hgt | hge
              · exact hdn2 (Or.inl hgt)
              · exact hdn2 (Or.inr ⟨by omega, h3⟩)
        · next hdn1 =>
          split
          · next => exact Nat.mul_le_mul_right _ (by omega)
          · next => exact le_rfl
      · have h1 : m / 2 ^ s + 1 ≤ n / 2 ^ s := by omega
        split
        · split
          · exact Nat.mul_le_mul_right _ (by omega)
          · exact Nat.mul_le_mul_right _ h1
        · split
          · exact Nat.mul_le_mul_right _ (by omega)
          · exact Nat.mul_le_mul_right _ hq

theorem round53_two_pow (k : Nat) : round53 (2 ^ k) = 2 ^ k := by
  rcases le_or_lt k 53 with hk | hk
  · exact round53_eq_of_le (Nat.pow_le_pow_right (by norm_num) hk)
  · unfold round53
    rw [if_neg (by
      simp only [not_lt]
      exact Nat.pow_le_pow_right (by norm_num) (by omega)), log2_two_pow]
    have hmod : 2 ^ k % 2 ^ (k - 52) = 0 := by
      rw [show (2 : Nat) ^ k = 2 ^ 52 * 2 ^ (k - 52) by
        rw [← Nat.pow_add]; congr 1; omega]
      exact Nat.mul_mod_left _ _
    have hdiv : 2 ^ k / 2 ^ (k - 52) = 2 ^ 52 := by
      rw [Nat.pow_div (by omega) (by norm_num)]
      congr 1
      omega
    rw [hmod, hdiv]
    have hhalf : 1 ≤ 2 ^ (k - 52 - 1) := Nat.one_le_two_pow
    rw [if_neg (by
      rintro (hc | ⟨hc, _⟩)
      · omega
      · omega)]
    rw [← Nat.pow_add]
    congr 1
    omega

theorem float_ceil_div_mono {m n f : Nat} (h : m ≤ n) (hf : 1 ≤ f) :
    float_ceil_div m f ≤ float_ceil_div n f :=
  ceil_div_le_ceil_div_left (round53_mono h) hf

theorem float_ceil_div_anti {n f f' : Nat} (hf : 1 ≤ f) (h : f ≤ f') :
    float_ceil_div n f' ≤ float_ceil_div n f :=
  ceil_div_anti_right hf h

theorem float_ceil_div_pos {n f : Nat} (hn : 1 ≤ n) (hf : 1 ≤ f) :
    1 ≤ float_ceil_div n f :=
  ceil_div_pos (round53_pos hn) hf

theorem levelsF_eq_cons {f : Nat} (hf : 2 ≤ f) {n : Nat} (h : 1 < n) :
    levelsF f hf n = n :: levelsF f hf (float_ceil_div n f) := by
  rw [levelsF]
  rw [dif_pos h]

theorem levelsF_eq_single {f : Nat} (hf : 2 ≤ f) {n : Nat} (h : ¬ 1 < n) :
    levelsF f hf n = [n] := by
  rw [levelsF]
  rw [dif_neg h]

theorem levelsF_ne_nil (f : Nat) (hf : 2 ≤ f) (n : Nat) :
    levelsF f hf n ≠ [] := by
  rw [levelsF]
  split <;> simp

theorem levelsF_length_pos (f : Nat) (hf : 2 ≤ f) (n : Nat) :
    1 ≤ (levelsF f hf n).length :=
  List.length_pos.mpr (levelsF_ne_nil f hf n)

theorem levelsF_head (f : Nat) (hf : 2 ≤ f) (n : Nat) :
    (levelsF f hf n).head? = some n := by
  rw [levelsF]
  split <;> simp

/-- Below `2 ^ 53` every conversion in the loop is exact, so the float
trace coincides with the exact ceiling-division trace. -/
theorem levelsF_eq_levels (f : Nat) (hf : 2 ≤ f) :
    ∀ n, n ≤ 2 ^ 53 → levelsF f hf n = levels f hf n := by
  intro n
  induction n using Nat.strong_induction_on with
  | _ n ih =>
    intro hb
    by_cases h : 1 < n
    · rw [levelsF_eq_cons hf h, levels_eq_cons hf h]
      have hfc : float_ceil_div n f = ceil_div n f := by
        unfold float_ceil_div
        rw [round53_eq_of_le hb]
      rw [hfc]
      rw [ih (ceil_div n f) (ceil_div_lt_self hf h)
        (le_trans (le_of_lt (ceil_div_lt_self hf h)) hb)]
    · rw [levelsF_eq_single hf h, levels_eq_single hf h]

theorem levelsF_sum_ge (f : Nat) (hf : 2 ≤ f) (n : Nat) :
    n ≤ (levelsF f hf n).sum := by
  rw [levelsF]
  split <;> simp

theorem levelsF_len_mono (f : Nat) (hf : 2 ≤ f) :
    ∀ m n, m ≤ n → (levelsF f hf m).length ≤ (levelsF f hf n).length := by
  intro m
  induction m using Nat.strong_induction_on with
  | _ m ih =>
    intro n hmn
    by_cases h : 1 < m
    · have h1 : 1 < n := by omega
      rw [levelsF_eq_cons hf h, levelsF_eq_cons hf h1]
      simp only [List.length_cons]
      have := ih (float_ceil_div m f) (float_ceil_div_lt hf h)
        (float_ceil_div n f) (float_ceil_div_mono hmn (by omega))
      omega
    · rw [levelsF_eq_single hf h]
      have := levelsF_length_pos f hf n
      simp only [List.length_singleton]
      omega

theorem levelsF_len_anti {f f' : Nat} (hf : 2 ≤ f) (hf' : 2 ≤ f')
    (hff' : f ≤ f') :
    ∀ n, (levelsF f' hf' n).length ≤ (levelsF f hf n).length := by
  intro n
  induction n using Nat.strong_induction_on with
  | _ n ih =>
    by_cases h : 1 < n
    · rw [levelsF_eq_cons hf h, levelsF_eq_cons hf' h]
      simp only [List.length_cons]
      have step1 := ih (float_ceil_div n f') (float_ceil_div_lt hf' h)
      have step2 := levelsF_len_mono f hf (float_ceil_div n f')
        (float_ceil_div n f) (float_ceil_div_anti (by omega) hff')
      omega
    · rw [levelsF_eq_single hf h, levelsF_eq_single hf' h]

theorem levelsF_sum_mono (f : Nat) (hf : 2 ≤ f) :
    ∀ m n, m ≤ n → (levelsF f hf m).sum ≤ (levelsF f hf n).sum := by
  intro m
  induction m using Nat.strong_induction_on with
  | _ m ih =>
    intro n hmn
    by_cases h : 1 < m
    · have h1 : 1 < n := by omega
      rw [levelsF_eq_cons hf h, levelsF_eq_cons hf h1]
      simp only [List.sum_cons]
      have := ih (float_ceil_div m f) (float_ceil_div_lt hf h)
        (float_ceil_div n f) (float_ceil_div_mono hmn (by omega))
      omega
    · have hms : (levelsF f hf m).sum = m := by
        rw [levelsF_eq_single hf h]
        simp
      rw [hms]
      exact le_trans hmn (levelsF_sum_ge f hf n)

theorem levelsF_sum_anti {f f' : Nat} (hf : 2 ≤ f) (hf' : 2 ≤ f')
    (hff' : f ≤ f') :
    ∀ n, (levelsF f' hf' n).sum ≤ (levelsF f hf n).sum := by
  intro n
  induction n using Nat.strong_induction_on with
  | _ n ih =>
    by_cases h : 1 < n
    · rw [levelsF_eq_cons hf h, levelsF_eq_cons hf' h]
      simp only [List.sum_cons]
      have step1 := ih (float_ceil_div n f') (float_ceil_div_lt hf' h)
      have step2 := levelsF_sum_mono f hf (float_ceil_div n f')
        (float_ceil_div n f) (float_ceil_div_anti (by omega) hff')
      omega
    · rw [levelsF_eq_single hf h, levelsF_eq_single hf' h]

set_option maxRecDepth 8000 in
/-- Unfolding the float loop: since the node count strictly decreases and
`round53` is monotone, only the very first division can overflow;
otherwise the loop returns the `levelsF` trace. -/
theorem estimateLoopF_spec (f : Nat) (hf : 2 ≤ f) :
    ∀ n height totalNodes perLevel,
      estimateLoopF f hf n height totalNodes perLevel =
        if 1 < n ∧ f * 2 ^ 1024 ≤ round53 n then
          .error "integer division result too large for a float"
        else
          .ok { height := height + ((levelsF f hf n).length - 1),
                totalNodes := totalNodes + (levelsF f hf n).sum,
                nodesPerLevel := perLevel ++ levelsF f hf n } := by
  intro n
  induction n using Nat.strong_induction_on with
  | _ n ih =>
    intro height totalNodes perLevel
    rw [estimateLoopF]
    split
    · next h =>
      by_cases hov : f * 2 ^ 1024 ≤ round53 n
      · rw [if_pos hov, if_pos ⟨h, hov⟩]
      · rw [if_neg hov, if_neg (fun hc => hov hc.2)]
        rw [ih (float_ceil_div n f) (float_ceil_div_lt hf h)]
        rw [if_neg (fun hc => hov
          (le_trans hc.2 (round53_mono (le_of_lt (float_ceil_div_lt hf h)))))]
        rw [levelsF_eq_cons hf h]
        have hpos := levelsF_length_pos f hf (float_ceil_div n f)
        simp only [List.length_cons, List.sum_cons, Except.ok.injEq,
          TreeShape.mk.injEq]
        refine ⟨by omega, by omega, by simp⟩
    · next h =>
      rw [if_neg (fun hc => h hc.1)]
      rw [levelsF_eq_single hf h]
      simp

theorem estimate_tree_float_ok {leaves : Nat} {fanout : Int}
    (h1 : 1 ≤ leaves) (h2 : fanout = 2 ∨ fanout = 4 ∨ fanout = 8)
    (hno : ¬(1 < leaves ∧ fanout.toNat * 2 ^ 1024 ≤ round53 leaves)) :
    ∃ hf : 2 ≤ fanout.toNat,
      estimate_tree_float (leaves : Int) fanout =
        .ok { height := (levelsF fanout.toNat hf leaves).length - 1,
              totalNodes := (levelsF fanout.toNat hf leaves).sum,
              nodesPerLevel := levelsF fanout.toNat hf leaves } := by
  have hf : 2 ≤ fanout.toNat := by
    rcases h2 with h | h | h <;> simp [h]
  refine ⟨hf, ?_⟩
  unfold estimate_tree_float
  rw [if_neg (by omega), dif_pos h2]
  rw [estimateLoopF_spec]
  simp only [Int.toNat_natCast]
  rw [if_neg hno]
  simp

theorem estimate_tree_float_overflow {leaves : Nat} {fanout : Int}
    (h1 : 1 < leaves) (h2 : fanout = 2 ∨ fanout = 4 ∨ fanout = 8)
    (hov : fanout.toNat * 2 ^ 1024 ≤ round53 leaves) :
    estimate_tree_float (leaves : Int) fanout =
      .error "integer division result too large for a float" := by
  unfold estimate_tree_float
  rw [if_neg (by omega), dif_pos h2]
  rw [estimateLoopF_spec]
  simp only [Int.toNat_natCast]
  rw [if_pos ⟨h1, hov⟩]

theorem estimate_tree_float_ok_inv {leaves : Nat} {fanout : Int}
    {s : TreeShape} (h1 : 1 ≤ leaves)
    (h2 : fanout = 2 ∨ fanout = 4 ∨ fanout = 8)
    (h : estimate_tree_float (leaves : Int) fanout = .ok s) :
    ∃ hf : 2 ≤ fanout.toNat,
      s = { height := (levelsF fanout.toNat hf leaves).length - 1,
            totalNodes := (levelsF fanout.toNat hf leaves).sum,
            nodesPerLevel := levelsF fanout.toNat hf leaves } := by
  have hf : 2 ≤ fanout.toNat := by
    rcases h2 with hx | hx | hx <;> simp [hx]
  refine ⟨hf, ?_⟩
  unfold estimate_tree_float at h
  rw [if_neg (by omega), dif_pos h2] at h
  rw [estimateLoopF_spec] at h
  simp only [Int.toNat_natCast] at h
  split at h
  · exact absurd h (by simp)
  · injection h with h'
    rw [← h']
    simp

/-! ## Claim C2: shape of the per-level sequence (float-faithful) -/

set_option maxRecDepth 16000 in
/-- C2 (counterexample): at `leaves = 2 ^ 53 + 1`, `fanout = 2` the real
loop's second level is `2 ^ 52` — the float quotient `(2 ^ 53 + 1) / 2`
rounds half-to-even down to `2 ^ 52` — while the exact ceiling division
the claim asserts gives `2 ^ 52 + 1`. -/
theorem claim_C2_counterexample :
    second_level (estimate_tree_float ((2 ^ 53 + 1 : Nat) : Int) 2) =
      some (2 ^ 52) ∧
    ceil_div (2 ^ 53 + 1) 2 = 2 ^ 52 + 1 := by
  have hlog : Nat.log2 (2 ^ 53 + 1) = 53 :=
    log2_eq_of_bounds (by norm_num) (by norm_num)
  have hr53 : round53 (2 ^ 53 + 1) = 2 ^ 53 := by
    unfold round53
    rw [if_neg (by norm_num), hlog]
    decide
  obtain ⟨hf, heq⟩ := @estimate_tree_float_ok (2 ^ 53 + 1) 2 (by norm_num)
    (by norm_num) (by rw [hr53]; decide)
  constructor
  · rw [heq]
    show (levelsF (2 : Int).toNat hf (2 ^ 53 + 1)).tail.head? = some (2 ^ 52)
    rw [levelsF_eq_cons hf (by norm_num)]
    have hfc : float_ceil_div (2 ^ 53 + 1) (2 : Int).toNat = 2 ^ 52 := by
      unfold float_ceil_div
      rw [show ((2 : Int).toNat) = 2 from rfl, hr53]
      decide
    rw [List.tail_cons, hfc]
    exact levelsF_head _ _ _
  · decide

/-- C2 (amended): for `1 ≤ leaves ≤ 2 ^ 53` — where every conversion in
the loop is float-exact — the returned `nodesPerLevel` starts at `leaves`,
ends at `1`, steps by exact ceiling division, and
`height = len(nodesPerLevel) - 1`; for `leaves = 1` it is `[1]` with
height `0`. -/
theorem claim_C2_tree_shape_bounded (leaves : Nat) (fanout : Int)
    (h1 : 1 ≤ leaves) (hb : leaves ≤ 2 ^ 53)
    (h2 : fanout = 2 ∨ fanout = 4 ∨ fanout = 8)
    (s : TreeShape)
    (hs : estimate_tree_float (leaves : Int) fanout = .ok s) :
    s.nodesPerLevel.head? = some leaves ∧
    s.nodesPerLevel.getLast? = some 1 ∧
    List.Chain' (fun a b => b = ceil_div a fanout.toNat) s.nodesPerLevel ∧
    s.height = s.nodesPerLevel.length - 1 ∧
    (leaves = 1 → s.nodesPerLevel = [1] ∧ s.height = 0) := by
  obtain ⟨hf, hs'⟩ := estimate_tree_float_ok_inv h1 h2 hs
  rw [levelsF_eq_levels fanout.toNat hf leaves hb] at hs'
  subst hs'
  refine ⟨levels_head _ _ _, levels_getLast _ _ _ h1, levels_chain _ _ _,
    rfl, ?_⟩
  intro hone
  subst hone
  simp [levels_one]

set_option exponentiation.threshold 2000 in
set_option maxRecDepth 8000 in
theorem claim_C2_bounded_witness :
    (1 : Nat) ≤ 6 ∧ (6 : Nat) ≤ 2 ^ 53 ∧
    ((2 : Int) = 2 ∨ (2 : Int) = 4 ∨ (2 : Int) = 8) ∧
    estimate_tree_float ((6 : Nat) : Int) 2 = .ok ⟨3, 12, [6, 3, 2, 1]⟩ ∧
    (((⟨3, 12, [6, 3, 2, 1]⟩ : TreeShape).nodesPerLevel.head? = some 6) ∧
     ((⟨3, 12, [6, 3, 2, 1]⟩ : TreeShape).nodesPerLevel.getLast? = some 1) ∧
     List.Chain' (fun a b => b = ceil_div a (2 : Int).toNat)
       (⟨3, 12, [6, 3, 2, 1]⟩ : TreeShape).nodesPerLevel ∧
     (⟨3, 12, [6, 3, 2, 1]⟩ : TreeShape).height =
       (⟨3, 12, [6, 3, 2, 1]⟩ : TreeShape).nodesPerLevel.length - 1 ∧
     ((6 : Nat) = 1 →
       (⟨3, 12, [6, 3, 2, 1]⟩ : TreeShape).nodesPerLevel = [1] ∧
       (⟨3, 12, [6, 3, 2, 1]⟩ : TreeShape).height = 0)) :=
  ⟨by norm_num, by norm_num, by norm_num,
   by simp [estimate_tree_float, estimateLoopF, float_ceil_div, round53,
     ceil_div],
   claim_C2_tree_shape_bounded 6 2 (by norm_num) (by norm_num) (by norm_num)
     ⟨3, 12, [6, 3, 2, 1]⟩
     (by simp [estimate_tree_float, estimateLoopF, float_ceil_div, round53,
       ceil_div])⟩

/-! ## Claim C4: monotonicity in the fanout (float-faithful) -/

/-- C4: for a fixed leaf count and style, moving to a larger allowed
fanout never increases the tree height nor the total commitment bytes —
over the bit-exact float model: the rounded update `float_ceil_div` is
monotone in the node count and antitone in the fanout, so the level
traces shrink pointwise. -/
theorem claim_C4_fanout_monotonicity (style : StyleProfile) (leaves : Nat)
    (h1 : 1 ≤ leaves) (f f' : Int)
    (hfv : f = 2 ∨ f = 4 ∨ f = 8) (hfv' : f' = 2 ∨ f' = 4 ∨ f' = 8)
    (hle : f ≤ f') (r r' : LayoutResult)
    (hr : build_layout_float style (leaves : Int) f = .ok r)
    (hr' : build_layout_float style (leaves : Int) f' = .ok r') :
    r'.treeHeight ≤ r.treeHeight ∧
    r'.totalCommitmentBytes ≤ r.totalCommitmentBytes := by
  unfold build_layout_float at hr hr'
  cases he : estimate_tree_float (leaves : Int) f with
  | error e =>
    rw [he] at hr
    simp [Except.map] at hr
  | ok t =>
    cases he' : estimate_tree_float (leaves : Int) f' with
    | error e =>
      rw [he'] at hr'
      simp [Except.map] at hr'
    | ok t' =>
      rw [he] at hr
      rw [he'] at hr'
      simp only [Except.map] at hr hr'
      injection hr with hre
      injection hr' with hre'
      subst hre
      subst hre'
      obtain ⟨hf, ht⟩ := estimate_tree_float_ok_inv h1 hfv he
      obtain ⟨hf', ht'⟩ := estimate_tree_float_ok_inv h1 hfv' he'
      subst ht
      subst ht'
      have hfle : f.toNat ≤ f'.toNat := by omega
      constructor
      · show (levelsF f'.toNat hf' leaves).length - 1 ≤
          (levelsF f.toNat hf leaves).length - 1
        have := levelsF_len_anti hf hf' hfle leaves
        omega
      · exact Nat.mul_le_mul_right _ (levelsF_sum_anti hf hf' hfle leaves)

set_option exponentiation.threshold 2000 in
set_option maxRecDepth 8000 in
theorem claim_C4_witness : (2 : Nat) ≤ 3 ∧ (288 : Nat) ≤ 384 :=
  claim_C4_fanout_monotonicity
    { key := "aztec", name := "Aztec-style privacy rollup", hash_bytes := 32,
      note := "Optimised for zk commitments over encrypted state roots." }
    6 (by norm_num) 2 4 (by norm_num) (by norm_num) (by norm_num)
    { style := "aztec", styleName := "Aztec-style privacy rollup",
      note := "Optimised for zk commitments over encrypted state roots.",
      leaves := 6, fanout := 2, treeHeight := 3, totalNodes := 12,
      nodesPerLevel := [6, 3, 2, 1], hashBytes := 32,
      proofBranchLength := 3, perProofBytes := 128, perProofBits := 1024,
      totalCommitmentBytes := 384 }
    { style := "aztec", styleName := "Aztec-style privacy rollup",
      note := "Optimised for zk commitments over encrypted state roots.",
      leaves := 6, fanout := 4, treeHeight := 2, totalNodes := 9,
      nodesPerLevel := [6, 2, 1], hashBytes := 32,
      proofBranchLength := 2, perProofBytes := 96, perProofBits := 768,
      totalCommitmentBytes := 288 }
    (by simp [build_layout_float, estimate_tree_float, estimateLoopF,
      float_ceil_div, round53, ceil_div, Except.map])
    (by simp [build_layout_float, estimate_tree_float, estimateLoopF,
      float_ceil_div, round53, ceil_div, Except.map])

/-! ## Claim C5: error behaviour of `estimate_tree` (float-faithful) -/

/-- C5 (counterexample): the valid input `leaves = 2 ^ 1100`, `fanout = 2`
fails — the first float division exceeds the double range and raises
`OverflowError` — refuting "no valid input fails". -/
theorem claim_C5_counterexample :
    (0 : Int) < ((2 ^ 1100 : Nat) : Int) ∧
    estimate_tree_float ((2 ^ 1100 : Nat) : Int) 2 =
      .error "integer division result too large for a float" := by
  constructor
  · exact_mod_cast Nat.pos_pow_of_pos 1100 (by norm_num)
  · refine estimate_tree_float_overflow
      (Nat.one_lt_two_pow_iff.mpr (by norm_num)) (by norm_num) ?_
    rw [round53_two_pow]
    rw [show ((2 : Int).toNat) = 2 from rfl, ← Nat.pow_succ']
    exact Nat.pow_le_pow_right (by norm_num) (by norm_num)

/-- C5 (amended): `estimate_tree` fails with `ValueError` exactly when
`leaves ≤ 0` or the fanout is not one of 2, 4, 8 (in particular
`leaves = 0` and `fanout = 3` both fail so); a valid input succeeds unless
the first float division overflows
(`leaves > 1` and `round53 leaves ≥ fanout * 2 ^ 1024`), in which case it
fails with `OverflowError` instead. -/
theorem claim_C5_error_classification :
    (∀ leaves fanout : Int,
      (estimate_tree_float leaves fanout = .error "leaves must be positive" ∨
       estimate_tree_float leaves fanout =
         .error "fanout must be one of 2, 4, or 8") ↔
      (leaves ≤ 0 ∨ ¬(fanout = 2 ∨ fanout = 4 ∨ fanout = 8))) ∧
    estimate_tree_float 0 2 = .error "leaves must be positive" ∧
    estimate_tree_float 5 3 = .error "fanout must be one of 2, 4, or 8" ∧
    (∀ (leaves : Nat) (fanout : Int), 1 ≤ leaves →
      (fanout = 2 ∨ fanout = 4 ∨ fanout = 8) →
      ¬(1 < leaves ∧ fanout.toNat * 2 ^ 1024 ≤ round53 leaves) →
      ∃ s, estimate_tree_float (leaves : Int) fanout = .ok s) ∧
    (∀ (leaves : Nat) (fanout : Int), 1 < leaves →
      (fanout = 2 ∨ fanout = 4 ∨ fanout = 8) →
      fanout.toNat * 2 ^ 1024 ≤ round53 leaves →
      estimate_tree_float (leaves : Int) fanout =
        .error "integer division result too large for a float") := by
  refine ⟨?_, by rfl, by simp [estimate_tree_float], ?_, ?_⟩
  · intro leaves fanout
    unfold estimate_tree_float
    by_cases hl : leaves ≤ 0
    · simp [hl]
    · rw [if_neg hl]
      by_cases hfan : fanout = 2 ∨ fanout = 4 ∨ fanout = 8
      · rw [dif_pos hfan]
        rw [estimateLoopF_spec]
        constructor
        · intro hmem
          rcases hmem with hmem | hmem <;> split at hmem <;>
            first
              | exact absurd hmem (by decide)
              | exact absurd hmem (by simp)
        · rintro (hc | hc)
          · exact absurd hc hl
          · exact absurd hfan hc
      · rw [dif_neg hfan]
        exact ⟨fun _ => Or.inr hfan, fun _ => Or.inr rfl⟩
  · intro leaves fanout h1 h2 hno
    obtain ⟨hf, heq⟩ := estimate_tree_float_ok h1 h2 hno
    exact ⟨_, heq⟩
  · intro leaves fanout h1 h2 hov
    exact estimate_tree_float_overflow h1 h2 hov

theorem claim_C5_witness :
    estimate_tree_float (-3) 2 = .error "leaves must be positive" ∨
    estimate_tree_float (-3) 2 = .error "fanout must be one of 2, 4, or 8" :=
  (claim_C5_error_classification.1 (-3) 2).mpr (Or.inl (by norm_num))

/-! ## Claim C9: termination and totality of the loop (float-faithful) -/

/-- C9 (counterexample): the valid input `leaves = 2 ^ 2000`, `fanout = 2`
does not complete: the first float division raises `OverflowError`, so
`estimate` is not total on valid inputs. -/
theorem claim_C9_counterexample :
    (0 : Int) < ((2 ^ 2000 : Nat) : Int) ∧
    estimate_tree_float ((2 ^ 2000 : Nat) : Int) 2 =
      .error "integer division result too large for a float" := by
  constructor
  · exact_mod_cast Nat.pos_pow_of_pos 2000 (by norm_num)
  · refine estimate_tree_float_overflow
      (Nat.one_lt_two_pow_iff.mpr (by norm_num)) (by norm_num) ?_
    rw [round53_two_pow]
    rw [show ((2 : Int).toNat) = 2 from rfl, ← Nat.pow_succ']
    exact Nat.pow_le_pow_right (by norm_num) (by norm_num)

/-- C9 (amended): the float-rounded update still strictly decreases every
node count above 1, so the loop always terminates; and `estimate`
completes successfully on every valid input whose first division stays
within the double range. -/
theorem claim_C9_termination_float :
    (∀ nodes f : Nat, 2 ≤ f → 1 < nodes → float_ceil_div nodes f < nodes) ∧
    (∀ (leaves : Nat) (fanout : Int), 1 ≤ leaves →
      (fanout = 2 ∨ fanout = 4 ∨ fanout = 8) →
      ¬(1 < leaves ∧ fanout.toNat * 2 ^ 1024 ≤ round53 leaves) →
      ∃ s, estimate_tree_float (leaves : Int) fanout = .ok s) := by
  refine ⟨fun nodes f hf hn => float_ceil_div_lt hf hn, ?_⟩
  intro leaves fanout h1 h2 hno
  obtain ⟨hf, heq⟩ := estimate_tree_float_ok h1 h2 hno
  exact ⟨_, heq⟩

set_option maxRecDepth 8000 in
theorem claim_C9_witness :
    float_ceil_div 7 2 < 7 ∧
    ∃ s, estimate_tree_float ((9 : Nat) : Int) 8 = .ok s :=
  ⟨claim_C9_termination_float.1 7 2 (by norm_num) (by norm_num),
   claim_C9_termination_float.2 9 8 (by norm_num) (by norm_num)
     (by rw [show round53 9 = 9 from round53_eq_of_le (by norm_num)]
         decide)⟩

/-! ## Claim C8: the code's float power-of-two test -/

/-- C8: the spec's branch policy tests whether the endpoints are exact
powers of two; `2 ^ 53 + 1` is not one, and the policy then mandates the
doubling branch, whose output at `leafMin = leafMax = 2 ^ 53 + 1` is
`[2 ^ 53 + 1]`.  The code's `math.log2(n).is_integer()` instead
classifies `2 ^ 53 + 1` as a power of two (its float conversion rounds to
`2 ^ 53`), and the exponent branch it then takes emits `[2 ^ 53]` — a
value strictly below `leafMin`. -/
theorem claim_C8_policy_divergence :
    isPow2 (2 ^ 53 + 1) = false ∧
    generate_leaf_counts (2 ^ 53 + 1) (2 ^ 53 + 1) 1 (by norm_num) =
      .ok [2 ^ 53 + 1] ∧
    powLoop 53 1 (by norm_num) 53 = [2 ^ 53] ∧
    2 ^ 53 < 2 ^ 53 + 1 := by
  have hlog : Nat.log2 (2 ^ 53 + 1) = 53 :=
    log2_eq_of_bounds (by norm_num) (by norm_num)
  have hpow : isPow2 (2 ^ 53 + 1) = false := by
    unfold isPow2
    rw [hlog]
    decide
  have hpow' : isPow2 9007199254740993 = false := by
    rw [show (9007199254740993 : Nat) = 2 ^ 53 + 1 by norm_num]
    exact hpow
  refine ⟨hpow, ?_, ?_, by norm_num⟩
  · unfold generate_leaf_counts
    rw [dif_neg (by decide), if_pos (by simp [hpow, hpow'])]
    simp [doubleLoop]
  · simp [powLoop]
